import Mathlib

/-!
Shallow embedding of `src/gc.c`: a tagged-union object heap driven by a
stop-the-world mark-and-sweep collector, a growable array type, a root
stack, and a small stack-machine interpreter with its tokenizer.

Modelling conventions.  Machine pointers are object ids (`Nat`); a `Ref` is
a possibly-null reference (`Option Nat`).  The intrusive linked list
`list_of_objects` is modelled as an association list in registry order (the
head of the list is the most recently allocated object, since `new_object`
prepends).  C `double` values are modelled as exact rationals.  Undefined
behaviour of the reference implementation (dangling dereference, reading a
union field of the wrong variant, stack underflow, unrecognized tokens) is
modelled by `Option`/failure results.
-/

namespace GC

/-- A reference: null or the id of a heap object. -/
abbrev Ref := Option Nat

/-- The value domain of the `double` payloads: exact rationals, stored as
a normalized numerator/denominator pair.  (The Mathlib `ℚ` operations are
`@[irreducible]`, which would keep closed program runs from computing, so
the embedding carries its own normalized-fraction arithmetic.)  The pair
`⟨0, 0⟩` is the result of division by zero, which IEEE arithmetic maps to
an infinity or NaN; no claim depends on that case. -/
structure Frac where
  num : Int
  den : Nat
deriving DecidableEq, Repr

/-- Build a normalized fraction. -/
def Frac.mk' (n : Int) (d : Nat) : Frac :=
  if d = 0 then ⟨0, 0⟩
  else
    let g := n.natAbs.gcd d
    ⟨n / (g : Int), d / g⟩

instance (n : Nat) : OfNat Frac n := ⟨⟨(n : Int), 1⟩⟩

/-- Exact addition. -/
def Frac.add (x y : Frac) : Frac :=
  Frac.mk' (x.num * (y.den : Int) + y.num * (x.den : Int)) (x.den * y.den)

/-- Exact subtraction. -/
def Frac.sub (x y : Frac) : Frac :=
  Frac.mk' (x.num * (y.den : Int) - y.num * (x.den : Int)) (x.den * y.den)

/-- Exact multiplication. -/
def Frac.mul (x y : Frac) : Frac :=
  Frac.mk' (x.num * y.num) (x.den * y.den)

/-- Exact division (division by zero yields the `⟨0, 0⟩` marker). -/
def Frac.div (x y : Frac) : Frac :=
  Frac.mk' (x.num * (y.den : Int) * y.num.sign) (x.den * y.num.natAbs)

/-- Negation. -/
def Frac.neg (x : Frac) : Frac := ⟨-x.num, x.den⟩

/-- Truncation toward zero, as C's `trunc` (exact on a normalized
fraction). -/
def Frac.trunc (x : Frac) : Int := x.num.tdiv (x.den : Int)

/-- Model of `fmod` on exact values: `x - trunc(x / y) * y`. -/
def fmodF (x y : Frac) : Frac :=
  Frac.sub x (Frac.mul y ⟨(Frac.div x y).trunc, 1⟩)

/-- Backing data of a dynamic array object: the capacity field `size` and
the first `length` slots of the backing buffer (`length` is `elems.length`);
slots past the logical length are never read by the code being modelled. -/
structure ArrayData where
  size : Nat
  elems : List Ref
deriving DecidableEq, Repr

/-- The union part of `struct Object`: one of the four variants. -/
inductive Payload where
  | number (value : Frac)
  | pair (head tail : Ref)
  | arr (data : ArrayData)
  | str (s : String)
deriving DecidableEq, Repr

/-- One heap object: the GC mark bit and the tagged-union payload.  The
`next` pointer of `struct Object` is represented by the position of the
entry in the registry list. -/
structure Obj where
  mark : Bool
  payload : Payload
deriving DecidableEq, Repr

/-- The heap registry `list_of_objects`, in registry order. -/
abbrev Heap := List (Nat × Obj)

/-- Dereference an id in the registry. -/
def lookup (h : Heap) (id : Nat) : Option Obj :=
  match h with
  | [] => none
  | e :: rest => if e.1 = id then some e.2 else lookup rest id

/-- Whether the id denotes an object currently in the registry. -/
def valid (h : Heap) (id : Nat) : Bool := (lookup h id).isSome

/-- The payload stored at an id, if any. -/
def payloadAt (h : Heap) (id : Nat) : Option Payload :=
  (lookup h id).map Obj.payload

/-- The mark bit stored at an id (`false` for dangling ids). -/
def markedB (h : Heap) (id : Nat) : Bool :=
  match lookup h id with
  | some o => o.mark
  | none => false

/-- Set the mark bit of the object with the given id (`object->mark = 1`). -/
def setMark (h : Heap) (id : Nat) : Heap :=
  h.map fun e => if e.1 = id then (e.1, { e.2 with mark := true }) else e

/-- Number of unmarked objects in the registry; the fuel measure for the
marking recursion. -/
def unmarkedCount (h : Heap) : Nat := h.countP fun e => !e.2.mark

/-- The references stored immediately inside an object: a pair's head and
tail, an array's elements, nothing for numbers and strings. -/
def children (h : Heap) (id : Nat) : List Ref :=
  match payloadAt h id with
  | some (.pair a b) => [a, b]
  | some (.arr d) => d.elems
  | _ => []

/-- All mark bits in the registry are clear: the state in which every
collection cycle starts (allocation initializes `mark = 0` and `sweep`
clears the mark of every survivor). -/
def allUnmarked (h : Heap) : Prop := ∀ e ∈ h, e.2.mark = false

instance (h : Heap) : Decidable (allUnmarked h) :=
  inferInstanceAs (Decidable (∀ e ∈ h, e.2.mark = false))

/-! ## Allocation (`new_object` and the per-variant constructors) -/

/-- Allocator state: the registry together with the next unused id. -/
structure AllocState where
  heap : Heap
  nextId : Nat
deriving DecidableEq, Repr

/-- Model of `new_object`: a fresh object with `mark = 0` and the given
payload is prepended to the registry. -/
def new_object (σ : AllocState) (p : Payload) : AllocState :=
  { heap := (σ.nextId, ⟨false, p⟩) :: σ.heap, nextId := σ.nextId + 1 }

/-- `INITIAL_ARRAY_SIZE`. -/
def INITIAL_ARRAY_SIZE : Nat := 16

/-- Payload produced by `new_array`: length 0, capacity 16. -/
def newArrayData : ArrayData := ⟨INITIAL_ARRAY_SIZE, []⟩

/-- One of the four allocation entry points. -/
inductive AllocOp where
  | number (value : Frac)
  | pair (head tail : Ref)
  | array
  | string (s : String)
deriving DecidableEq, Repr

/-- Run one allocation entry point (`new_number`, `new_pair`, `new_array`,
`new_string`). -/
def applyAlloc (σ : AllocState) : AllocOp → AllocState
  | .number q => new_object σ (.number q)
  | .pair a b => new_object σ (.pair a b)
  | .array => new_object σ (.arr newArrayData)
  | .string s => new_object σ (.str s)

/-- Run a sequence of allocations starting from the empty registry. -/
def runAllocs (ops : List AllocOp) : AllocState :=
  ops.foldl applyAlloc ⟨[], 0⟩

/-! ## Growable array operations -/

/-- Model of `append_element`: double the capacity when full, then store the
element at index `length` and increment `length`. -/
def append_element (a : ArrayData) (e : Ref) : ArrayData :=
  let a' := if a.elems.length = a.size then { a with size := a.size * 2 } else a
  { a' with elems := a'.elems ++ [e] }

/-- Model of `get_element`; reading outside `0 ≤ i < length` is out of the
buffer's initialized region in the C code, modelled as `none`. -/
def get_element (a : ArrayData) (i : Nat) : Option Ref :=
  a.elems[i]?

/-- Model of `set_element`; writing outside the logical length is modelled
as a no-op (`List.set` ignores out-of-range indices). -/
def set_element (a : ArrayData) (i : Nat) (e : Ref) : ArrayData :=
  { a with elems := a.elems.set i e }

/-! ## The mark phase

The C `mark_object` recurses through the object graph; the already-marked
guard bounds the recursion by the number of unmarked objects.  The shallow
embedding makes that bound explicit as fuel: `mark_object fuel h r` runs the
C recursion, giving up (returning the heap unchanged) if more than `fuel`
objects would have to be newly marked.  Fuel `unmarkedCount h` is always
sufficient (`mark_object_fuel_ge` below), which is the termination argument
of the C code. -/

mutual

/-- Model of `mark_object`. -/
def mark_object : Nat → Heap → Ref → Heap
  | 0, h, _ => h
  | _ + 1, h, none => h
  | fuel + 1, h, some id =>
    match lookup h id with
    | none => h
    | some o =>
      if o.mark then h
      else
        let h1 := setMark h id
        match o.payload with
        | .number _ => h1
        | .str _ => h1
        | .pair a b => mark_object fuel (mark_object fuel h1 a) b
        | .arr d => mark_elements fuel h1 d.elems
termination_by fuel _ _ => (fuel, 0)

/-- Model of `mark_elements`: mark every element of an array in index
order. -/
def mark_elements : Nat → Heap → List Ref → Heap
  | _, h, [] => h
  | fuel, h, r :: rs => mark_elements fuel (mark_object fuel h r) rs
termination_by fuel _ rs => (fuel, rs.length + 1)

end

/-- `mark_object` run with the always-sufficient fuel. -/
def markObj (h : Heap) (r : Ref) : Heap := mark_object (unmarkedCount h) h r

/-- Model of `mark()`: mark from every root on the stack, from index 0
(bottom of the stack) upward.  The stack is a list whose head is the top, so
index order is `foldr`. -/
def mark (h : Heap) (stack : List Ref) : Heap :=
  stack.foldr (fun r hh => markObj hh r) h

/-! ## The sweep phase and the collector driver -/

/-- Model of `sweep`: one forward pass over the registry; marked objects
survive with their mark cleared, unmarked objects are unchained and freed.
The `previous`-pointer relinking of the C code implements exactly this
filter on the registry list.  (The sweep trace lines printed on stdout are
not part of the heap state and are not modelled.) -/
def sweep (h : Heap) : Heap :=
  h.filterMap fun e => if e.2.mark then some (e.1, { e.2 with mark := false }) else none

/-- Model of `stop_the_world_mark_and_sweep` (the `collect()` entry point):
mark then sweep. -/
def stop_the_world_mark_and_sweep (h : Heap) (stack : List Ref) : Heap :=
  sweep (mark h stack)

/-! ## Reachability -/

/-- `Reach h r x`: the object `x` is transitively reachable from the
reference `r` through the payload references of registry objects. -/
inductive Reach (h : Heap) : Ref → Nat → Prop where
  | refl (x : Nat) : valid h x = true → Reach h (some x) x
  | step (r : Ref) (x y : Nat) :
      Reach h r x → some y ∈ children h x → valid h y = true → Reach h r y

/-- Reachable from some root currently on the stack. -/
def ReachStack (h : Heap) (stack : List Ref) (x : Nat) : Prop :=
  ∃ r ∈ stack, Reach h r x

/-- The mark-insensitive part of a registry entry: id and payload. -/
def stripE (e : Nat × Obj) : Nat × Payload := (e.1, e.2.payload)

/-- Entry ordering for the mark phase: same id, same payload, mark bit only
ever raised. -/
def EntryLe (e f : Nat × Obj) : Prop :=
  f.1 = e.1 ∧ f.2.payload = e.2.payload ∧ (e.2.mark = true → f.2.mark = true)

/-- Heap ordering for the mark phase: the registries list the same objects
with the same payloads in the same order, and marking is monotone. -/
def MarkLe (h h' : Heap) : Prop := List.Forall₂ EntryLe h h'

/-! ## Printing (`print_object`, `print_array`)

`print_object` writes to stdout; the model returns the written string.  Two
failure modes are distinguished: `nofuel` (the C code would loop forever,
e.g. printing a cyclic list) and `undefined` (the C code reads memory whose
contents is not defined by the program). -/

/-- Result of a modelled print: the produced text, a diverging loop, or
undefined behaviour. -/
inductive PrintRes where
  | ok (s : String)
  | nofuel
  | undefined
deriving DecidableEq, Repr

/-- Sequence two print results, concatenating their output. -/
def PrintRes.seq : PrintRes → PrintRes → PrintRes
  | .ok a, .ok b => .ok (a ++ b)
  | .nofuel, _ => .nofuel
  | .undefined, _ => .undefined
  | .ok _, .nofuel => .nofuel
  | .ok _, .undefined => .undefined

/-- Model of `printf("%g", v)` on the modelled domain: integral values of
magnitude below 10^6 print as plain decimal integers (exactly what `%g`
does for them).  Values outside this domain render with 6 significant
digits or exponent notation in C; the model leaves them undefined, and no
claim depends on them. -/
def renderNumber (q : Frac) : Option String :=
  if q.den = 1 ∧ q.num.natAbs < 1000000 then
    some ((if q.num < 0 then "-" else "") ++ toString q.num.natAbs)
  else none

/-- The `tail` union field of an object, as the C expression
`object->tail` reads it: defined only when the object is a `PAIR`; for any
other variant the read returns uninitialized or reinterpreted memory. -/
def tailField : Payload → Option Ref
  | .pair _ t => some t
  | _ => none

/-- The three recursion sites of the printing code: `print_object` itself,
the element loop of `print_array` (with its "first element" flag), and the
tail-walking loop of `print_object`'s `PAIR` case. -/
inductive PrintTask where
  | obj (r : Ref)
  | items (rs : List Ref) (first : Bool)
  | rest (r : Ref)
deriving DecidableEq, Repr

/-- The printing recursion, structurally recursive on fuel so that closed
runs compute.  `.obj r` is `print_object(r)`; `.items rs first` is the
element loop of `print_array`; `.rest r` is the tail-walking loop in
`print_object`'s `PAIR` case: while the current tail is a pair, print a
space and its head; at the end a null tail closes the parenthesis, and a
non-null non-pair tail makes the C code print `" . "` followed by
`print_object(object->tail)` — a read of the `tail` union field of a
non-pair object, which is undefined. -/
def printGo : Nat → Heap → PrintTask → PrintRes
  | 0, _, _ => .nofuel
  | fuel + 1, h, t =>
    match t with
    | .obj none => .ok "null"
    | .obj (some id) =>
      match lookup h id with
      | none => .undefined
      | some o =>
        match o.payload with
        | .number q =>
          match renderNumber q with
          | some s => .ok s
          | none => .undefined
        | .str s => .ok ("\"" ++ s ++ "\"")
        | .arr d =>
          (PrintRes.ok "[").seq ((printGo fuel h (.items d.elems true)).seq (.ok "]"))
        | .pair a b =>
          (PrintRes.ok "(").seq ((printGo fuel h (.obj a)).seq (printGo fuel h (.rest b)))
    | .items [] _ => .ok ""
    | .items (r :: rs) first =>
      ((if first then PrintRes.ok "" else PrintRes.ok ", ").seq (printGo fuel h (.obj r))).seq
        (printGo fuel h (.items rs false))
    | .rest none => .ok ")"
    | .rest (some id) =>
      match lookup h id with
      | none => .undefined
      | some o =>
        match o.payload with
        | .pair a b =>
          ((PrintRes.ok " ").seq (printGo fuel h (.obj a))).seq (printGo fuel h (.rest b))
        | p =>
          (PrintRes.ok " . ").seq
            ((match tailField p with
              | some t => printGo fuel h (.obj t)
              | none => PrintRes.undefined).seq (.ok ")"))

/-- Model of `print_object`: the text it writes for the given reference. -/
def print_object (fuel : Nat) (h : Heap) (r : Ref) : PrintRes :=
  printGo fuel h (.obj r)

/-! ## Tokenizer and interpreter -/

/-- The token kinds of `enum TokenType`; `number` carries the reference to
the `Number` object materialized by the tokenizer. -/
inductive Token where
  | add
  | cons
  | div
  | endT
  | mod
  | mul
  | null
  | number (value : Ref)
  | pop
  | print
  | sub
deriving DecidableEq, Repr

/-- Whitespace skipped by the tokenizer: the tab–carriage-return range and
the space character. -/
def isWs (c : Char) : Bool := decide ((9 ≤ c.toNat ∧ c.toNat ≤ 13) ∨ c.toNat = 32)

/-- ASCII decimal digit. -/
def isDigit (c : Char) : Bool := decide (48 ≤ c.toNat ∧ c.toNat ≤ 57)

/-- ASCII lowercase letter. -/
def isLower (c : Char) : Bool := decide (97 ≤ c.toNat ∧ c.toNat ≤ 122)

/-- Scan the remainder of a numeric lexeme after its first character, per
the tokenizer's grammar: digits, an optional fractional part, an optional
exponent.  Returns the scanned characters and the rest of the input. -/
def scanNumber (cs : List Char) : List Char × List Char :=
  let (d1, r1) := cs.span isDigit
  let (frac, r2) : List Char × List Char :=
    match r1 with
    | '.' :: rest =>
      let (d2, r3) := rest.span isDigit
      ('.' :: d2, r3)
    | _ => ([], r1)
  let (ex, r4) : List Char × List Char :=
    match r2 with
    | c :: rest =>
      if c = 'e' ∨ c = 'E' then
        match rest with
        | s :: rest2 =>
          if s = '+' ∨ s = '-' then
            let (d3, r5) := rest2.span isDigit
            (c :: s :: d3, r5)
          else
            let (d3, r5) := rest.span isDigit
            (c :: d3, r5)
        | [] => ([c], [])
      else ([], r2)
    | [] => ([], r2)
  (d1 ++ frac ++ ex, r4)

/-- Value of a digit string. -/
def digitsVal (ds : List Char) : Nat := ds.foldl (fun n c => 10 * n + (c.toNat - 48)) 0

/-- Model of `atof` on the tokenizer's numeric lexemes: the exact decimal
value (sign, integer part, fractional part, decimal exponent). -/
def parseDec (cs : List Char) : Frac :=
  let (neg, cs1) : Bool × List Char :=
    match cs with
    | '-' :: rest => (true, rest)
    | '+' :: rest => (false, rest)
    | _ => (false, cs)
  let (ip, r1) := cs1.span isDigit
  let (fv, r2) : Frac × List Char :=
    match r1 with
    | '.' :: rest =>
      let (fp, r) := rest.span isDigit
      (Frac.mk' (digitsVal fp : Int) (10 ^ fp.length), r)
    | _ => (⟨0, 1⟩, r1)
  let ev : Int :=
    match r2 with
    | c :: rest =>
      if c = 'e' ∨ c = 'E' then
        match rest with
        | s :: rest2 =>
          if s = '-' then -(digitsVal (rest2.takeWhile isDigit) : Int)
          else if s = '+' then (digitsVal (rest2.takeWhile isDigit) : Int)
          else (digitsVal (rest.takeWhile isDigit) : Int)
        | [] => 0
      else 0
    | [] => 0
  let scale : Frac :=
    if 0 ≤ ev then ⟨(10 : Int) ^ ev.toNat, 1⟩ else Frac.mk' 1 (10 ^ (-ev).toNat)
  let mag := Frac.mul (Frac.add ⟨(digitsVal ip : Int), 1⟩ fv) scale
  if neg then Frac.neg mag else mag

/-- Interpreter state: the allocator state (registry and fresh ids), the
operand stack (head of the list = top of the stack), and the lines written
to stdout so far. -/
structure InterpState where
  heap : Heap
  nextId : Nat
  stack : List Ref
  output : List String
deriving DecidableEq, Repr

/-- Allocate a fresh object from interpreter state (the interpreter's and
tokenizer's calls to `new_number` / `new_pair`). -/
def allocObj (σ : InterpState) (p : Payload) : InterpState × Ref :=
  ({ σ with heap := (σ.nextId, ⟨false, p⟩) :: σ.heap, nextId := σ.nextId + 1 },
    some σ.nextId)

/-- Model of `next_token`: skip whitespace, then classify the end of input,
a numeric lexeme (materializing a `Number` object via `new_number(atof(...))`),
or a lowercase keyword.  An unrecognized lexeme leaves `token.type`
uninitialized in the C code: modelled as `none`. -/
def nextToken (σ : InterpState) (cs : List Char) :
    Option (Token × InterpState × List Char) :=
  let cs := cs.dropWhile isWs
  match cs with
  | [] => some (.endT, σ, [])
  | c :: rest =>
    if c = '+' ∨ c = '-' ∨ isDigit c then
      let (body, r) := scanNumber rest
      let (σ', v) := allocObj σ (.number (parseDec (c :: body)))
      some (.number v, σ', r)
    else if isLower c then
      let (w, r) := (c :: rest).span isLower
      let word := String.mk w
      if word = "add" then some (.add, σ, r)
      else if word = "cons" then some (.cons, σ, r)
      else if word = "div" then some (.div, σ, r)
      else if word = "mod" then some (.mod, σ, r)
      else if word = "mul" then some (.mul, σ, r)
      else if word = "null" then some (.null, σ, r)
      else if word = "pop" then some (.pop, σ, r)
      else if word = "print" then some (.print, σ, r)
      else if word = "sub" then some (.sub, σ, r)
      else none
    else none

/-- The value of the `number` union field of the referenced object,
defined only when the reference is non-null, live, and a `NUMBER`; the C
expression `operand->number` is undefined otherwise. -/
def numberValue (h : Heap) (r : Ref) : Option Frac :=
  match r with
  | none => none
  | some id =>
    match lookup h id with
    | some o =>
      match o.payload with
      | .number q => some q
      | _ => none
    | none => none

/-- The binary-operator cases of `interpret`: pop the right operand, pop
the left operand, push a fresh `Number` holding `f left right`. -/
def applyBinop (σ : InterpState) (f : Frac → Frac → Frac) : Option InterpState :=
  match σ.stack with
  | b :: a :: rest =>
    match numberValue σ.heap a, numberValue σ.heap b with
    | some x, some y =>
      some { σ with
        heap := (σ.nextId, ⟨false, .number (f x y)⟩) :: σ.heap,
        nextId := σ.nextId + 1,
        stack := some σ.nextId :: rest }
    | _, _ => none
  | _ => none

/-- The arithmetic denoted by each binary-operator token. -/
def opDenote : Token → Frac → Frac → Frac
  | .add => fun x y => Frac.add x y
  | .sub => fun x y => Frac.sub x y
  | .mul => fun x y => Frac.mul x y
  | .div => fun x y => Frac.div x y
  | .mod => fun x y => fmodF x y
  | _ => fun _ _ => 0

/-- One dispatch step of `interpret` on a non-end token; `none` models the
undefined behaviour of stack underflow, a non-number arithmetic operand, or
a failed print. -/
def dispatch (σ : InterpState) : Token → Option InterpState
  | .add => applyBinop σ fun x y => Frac.add x y
  | .cons =>
    match σ.stack with
    | b :: a :: rest =>
      some { σ with
        heap := (σ.nextId, ⟨false, .pair a b⟩) :: σ.heap,
        nextId := σ.nextId + 1,
        stack := some σ.nextId :: rest }
    | _ => none
  | .div => applyBinop σ fun x y => Frac.div x y
  | .endT => none
  | .mod => applyBinop σ fun x y => fmodF x y
  | .mul => applyBinop σ fun x y => Frac.mul x y
  | .null => some { σ with stack := none :: σ.stack }
  | .number v => some { σ with stack := v :: σ.stack }
  | .pop =>
    match σ.stack with
    | _ :: rest => some { σ with stack := rest }
    | [] => none
  | .print =>
    match σ.stack with
    | top :: _ =>
      match print_object (σ.heap.length + 2) σ.heap top with
      | .ok s => some { σ with output := σ.output ++ [s] }
      | _ => none
    | [] => none
  | .sub => applyBinop σ fun x y => Frac.sub x y

/-- The fetch–dispatch loop of `interpret`.  Each iteration consumes at
least one input character, so fuel `cs.length + 1` always suffices; running
out of fuel or hitting undefined behaviour yields `none`. -/
def run : Nat → InterpState → List Char → Option InterpState
  | 0, _, _ => none
  | fuel + 1, σ, cs =>
    match nextToken σ cs with
    | none => none
    | some (.endT, σ', _) => some σ'
    | some (t, σ', r) =>
      match dispatch σ' t with
      | none => none
      | some σ2 => run fuel σ2 r

/-- The interpreter run on a program text from the initial state (empty
registry, empty stack). -/
def interpret (cs : List Char) : Option InterpState :=
  run (cs.length + 1) ⟨[], 0, [], []⟩ cs

/-- The fixed demo program `code` of `gc.c`. -/
def code : String := "1 2 add 3 mul print pop 1 2 3 null cons cons cons print"

/-! ## Concrete inputs used by the witnesses -/

/-- A heap with a root pair, its reachable number, and an unreachable
number. -/
def exHeap : Heap :=
  [(0, ⟨false, .pair (some 1) none⟩), (1, ⟨false, .number 1⟩), (2, ⟨false, .number 2⟩)]

/-- A cyclic heap: two pairs referencing each other through head and
tail. -/
def cycHeap : Heap :=
  [(0, ⟨false, .pair (some 1) (some 1)⟩), (1, ⟨false, .pair (some 0) (some 0)⟩)]

/-- The improper list `(1 . 2)`: a pair of two numbers. -/
def improperHeap : Heap :=
  [(0, ⟨false, .pair (some 1) (some 2)⟩), (1, ⟨false, .number 1⟩), (2, ⟨false, .number 2⟩)]

/-- An interpreter state whose stack holds two numbers (5 below 3). -/
def exInterp : InterpState :=
  ⟨[(0, ⟨false, .number 5⟩), (1, ⟨false, .number 3⟩)], 2, [some 1, some 0], []⟩

/-- A three-element array payload. -/
def exArrayData : ArrayData := ⟨16, [none, some 1, some 2]⟩

/-! ## Basic registry lemmas -/

theorem mem_of_lookup {h : Heap} {id : Nat} {o : Obj} (hl : lookup h id = some o) :
    (id, o) ∈ h := by
  induction h with
  | nil => simp [lookup] at hl
  | cons e t ih =>
    obtain ⟨a, b⟩ := e
    simp only [lookup] at hl
    by_cases he : a = id
    · simp only [he, if_pos rfl] at hl
      subst he
      cases hl
      exact List.mem_cons_self _ _
    · rw [if_neg he] at hl
      exact List.mem_cons_of_mem _ (ih hl)

theorem lookup_of_mem_nodup {h : Heap} {id : Nat} {o : Obj}
    (hn : (h.map Prod.fst).Nodup) (hm : (id, o) ∈ h) : lookup h id = some o := by
  induction h with
  | nil => simp at hm
  | cons e t ih =>
    obtain ⟨a, b⟩ := e
    simp only [List.map_cons, List.nodup_cons] at hn
    rcases List.mem_cons.mp hm with heq | hmem
    · cases heq
      simp [lookup]
    · have hne : a ≠ id := by
        intro hai
        exact hn.1 (by simpa [hai] using List.mem_map_of_mem Prod.fst hmem)
      simp only [lookup, if_neg hne]
      exact ih hn.2 hmem

theorem valid_of_lookup {h : Heap} {id : Nat} {o : Obj} (hl : lookup h id = some o) :
    valid h id = true := by
  simp [valid, hl]

theorem unmarkedCount_pos {h : Heap} {id : Nat} {o : Obj}
    (hl : lookup h id = some o) (hm : o.mark = false) : 0 < unmarkedCount h := by
  refine List.countP_pos_iff.mpr ⟨(id, o), mem_of_lookup hl, ?_⟩
  simp [hm]

/-! ## `setMark` lemmas -/

theorem lookup_setMark_self (h : Heap) (id : Nat) :
    lookup (setMark h id) id = (lookup h id).map fun o => ⟨true, o.payload⟩ := by
  induction h with
  | nil => simp [lookup, setMark]
  | cons e t ih =>
    obtain ⟨a, b⟩ := e
    by_cases he : a = id
    · subst he
      simp [lookup, setMark]
    · simp only [setMark, List.map_cons, if_neg he]
      simpa [lookup, if_neg he, setMark] using ih

theorem lookup_setMark_ne (h : Heap) {id x : Nat} (hne : x ≠ id) :
    lookup (setMark h id) x = lookup h x := by
  induction h with
  | nil => simp [lookup, setMark]
  | cons e t ih =>
    obtain ⟨a, b⟩ := e
    by_cases he : a = id
    · subst he
      simp only [setMark, List.map_cons, if_pos rfl]
      rw [lookup, lookup, if_neg (fun hax => hne hax.symm), if_neg (fun hax => hne hax.symm)]
      simpa [setMark] using ih
    · simp only [setMark, List.map_cons, if_neg he]
      by_cases hax : a = x
      · simp [lookup, hax]
      · rw [lookup, lookup, if_neg hax, if_neg hax]
        simpa [setMark] using ih

theorem payloadAt_setMark (h : Heap) (id x : Nat) :
    payloadAt (setMark h id) x = payloadAt h x := by
  by_cases he : x = id
  · subst he
    rw [payloadAt, payloadAt, lookup_setMark_self]
    cases lookup h x <;> rfl
  · rw [payloadAt, payloadAt, lookup_setMark_ne h he]

theorem markedB_setMark {h : Heap} {id x : Nat}
    (hm : markedB (setMark h id) x = true) : x = id ∨ markedB h x = true := by
  by_cases he : x = id
  · exact Or.inl he
  · right
    rwa [markedB, lookup_setMark_ne h he, ← markedB] at hm

theorem markedB_setMark_self {h : Heap} {id : Nat} (hv : valid h id = true) :
    markedB (setMark h id) id = true := by
  rw [markedB, lookup_setMark_self]
  rw [valid] at hv
  cases hl : lookup h id with
  | none => rw [hl] at hv; simp at hv
  | some o => simp

theorem markLe_setMark (h : Heap) (id : Nat) : MarkLe h (setMark h id) := by
  induction h with
  | nil => exact List.Forall₂.nil
  | cons e t ih =>
    refine List.Forall₂.cons ?_ ih
    by_cases he : e.1 = id
    · simp [EntryLe, if_pos he]
    · simp [EntryLe, if_neg he]

theorem unmarkedCount_setMark_le (h : Heap) (id : Nat) :
    unmarkedCount (setMark h id) ≤ unmarkedCount h := by
  induction h with
  | nil => simp [setMark, unmarkedCount]
  | cons e t ih =>
    have hstep : setMark (e :: t) id =
        (if e.1 = id then (e.1, { e.2 with mark := true }) else e) :: setMark t id := rfl
    rw [hstep, unmarkedCount, unmarkedCount, List.countP_cons, List.countP_cons]
    refine Nat.add_le_add ih ?_
    by_cases he : e.1 = id
    · rw [if_pos he]
      simp
    · rw [if_neg he]

theorem unmarkedCount_setMark_lt {h : Heap} {id : Nat} {o : Obj}
    (hl : lookup h id = some o) (hm : o.mark = false) :
    unmarkedCount (setMark h id) < unmarkedCount h := by
  induction h with
  | nil => simp [lookup] at hl
  | cons e t ih =>
    obtain ⟨a, b⟩ := e
    simp only [lookup] at hl
    by_cases he : a = id
    · rw [if_pos he] at hl
      injection hl with hbo
      have hstep : setMark ((a, b) :: t) id = (a, { b with mark := true }) :: setMark t id := by
        simp [setMark, he]
      rw [hstep, unmarkedCount, unmarkedCount, List.countP_cons, List.countP_cons]
      have h1 := unmarkedCount_setMark_le t id
      have hb : b.mark = false := by rw [hbo]; exact hm
      simp only [hb, Bool.not_true, Bool.not_false, if_true, if_false]
      simp only [unmarkedCount] at h1
      simp only [show ((false = true) = False) by simp, show ((true = true) = True) by simp,
        if_true, if_false]
      omega
    · rw [if_neg he] at hl
      have h2 := ih hl
      have hstep : setMark ((a, b) :: t) id =
          (if a = id then (a, { b with mark := true }) else (a, b)) :: setMark t id := rfl
      rw [hstep, if_neg he, unmarkedCount, unmarkedCount, List.countP_cons, List.countP_cons]
      simp only [unmarkedCount] at h2
      omega

/-! ## `MarkLe` lemmas -/

theorem markLe_refl (h : Heap) : MarkLe h h := by
  induction h with
  | nil => exact List.Forall₂.nil
  | cons e t ih => exact List.Forall₂.cons ⟨rfl, rfl, fun hm => hm⟩ ih

theorem markLe_trans {a b c : Heap} (hab : MarkLe a b) (hbc : MarkLe b c) : MarkLe a c := by
  induction hab generalizing c with
  | nil =>
    cases hbc
    exact List.Forall₂.nil
  | cons hef htt ih =>
    cases hbc with
    | cons hfg htt2 =>
      exact List.Forall₂.cons
        ⟨hfg.1.trans hef.1, hfg.2.1.trans hef.2.1, fun hm => hfg.2.2 (hef.2.2 hm)⟩ (ih htt2)

theorem markLe_lookup {h h' : Heap} (hle : MarkLe h h') {x : Nat} {o : Obj}
    (hl : lookup h x = some o) :
    ∃ o', lookup h' x = some o' ∧ o'.payload = o.payload ∧ (o.mark = true → o'.mark = true) := by
  induction hle with
  | nil => simp [lookup] at hl
  | cons hef htt ih =>
    rename_i e f t t'
    rw [lookup] at hl
    by_cases he : e.1 = x
    · rw [if_pos he] at hl
      injection hl with heo
      refine ⟨f.2, ?_, ?_, ?_⟩
      · rw [lookup, if_pos (hef.1.trans he)]
      · rw [hef.2.1, heo]
      · exact fun hm => hef.2.2 (by rw [heo]; exact hm)
    · rw [if_neg he] at hl
      obtain ⟨o', ho'⟩ := ih hl
      refine ⟨o', ?_, ho'.2.1, ho'.2.2⟩
      rw [lookup, if_neg (fun hfx => he (hef.1 ▸ hfx)), ho'.1]

theorem markLe_lookup_none {h h' : Heap} (hle : MarkLe h h') {x : Nat}
    (hl : lookup h x = none) : lookup h' x = none := by
  induction hle with
  | nil => simp [lookup]
  | cons hef htt ih =>
    rename_i e f t t'
    rw [lookup] at hl ⊢
    by_cases he : e.1 = x
    · rw [if_pos he] at hl
      exact absurd hl (by simp)
    · rw [if_neg he] at hl
      rw [if_neg (fun hfx => he (hef.1 ▸ hfx))]
      exact ih hl

theorem markLe_payloadAt {h h' : Heap} (hle : MarkLe h h') (x : Nat) :
    payloadAt h' x = payloadAt h x := by
  cases hl : lookup h x with
  | none => rw [payloadAt, payloadAt, hl, markLe_lookup_none hle hl]
  | some o =>
    obtain ⟨o', ho', hp, _⟩ := markLe_lookup hle hl
    rw [payloadAt, payloadAt, hl, ho']
    simp [hp]

theorem markLe_valid {h h' : Heap} (hle : MarkLe h h') (x : Nat) :
    valid h' x = valid h x := by
  cases hl : lookup h x with
  | none => rw [valid, valid, hl, markLe_lookup_none hle hl]
  | some o =>
    obtain ⟨o', ho', _, _⟩ := markLe_lookup hle hl
    rw [valid, valid, hl, ho']
    rfl

theorem markLe_children {h h' : Heap} (hle : MarkLe h h') (x : Nat) :
    children h' x = children h x := by
  rw [children, children, markLe_payloadAt hle]

theorem markLe_markedB {h h' : Heap} (hle : MarkLe h h') {x : Nat}
    (hm : markedB h x = true) : markedB h' x = true := by
  rw [markedB] at hm
  cases hl : lookup h x with
  | none => rw [hl] at hm; simp at hm
  | some o =>
    rw [hl] at hm
    obtain ⟨o', ho', _, hmono⟩ := markLe_lookup hle hl
    rw [markedB, ho']
    exact hmono hm

theorem markLe_count {h h' : Heap} (hle : MarkLe h h') :
    unmarkedCount h' ≤ unmarkedCount h := by
  induction hle with
  | nil => exact le_refl _
  | cons hef htt ih =>
    rename_i e f t t'
    rw [unmarkedCount, unmarkedCount, List.countP_cons, List.countP_cons]
    refine Nat.add_le_add ih ?_
    cases hm : e.2.mark with
    | true => simp [hef.2.2 hm]
    | false => cases f.2.mark <;> simp

theorem markLe_strip {h h' : Heap} (hle : MarkLe h h') :
    h'.map stripE = h.map stripE := by
  induction hle with
  | nil => rfl
  | cons hef htt ih =>
    rename_i e f t t'
    simp only [List.map_cons, ih, stripE, hef.1, hef.2.1]

theorem markLe_fst {h h' : Heap} (hle : MarkLe h h') :
    h'.map Prod.fst = h.map Prod.fst := by
  induction hle with
  | nil => rfl
  | cons hef htt ih =>
    rename_i e f t t'
    simp only [List.map_cons, ih, hef.1]

/-! ## Transport of reachability along payload-preserving heap changes -/

theorem valid_eq_payloadAt (h : Heap) (x : Nat) : valid h x = (payloadAt h x).isSome := by
  rw [valid, payloadAt]
  cases lookup h x <;> rfl

theorem children_congr {h h' : Heap} {x : Nat} (hp : payloadAt h' x = payloadAt h x) :
    children h' x = children h x := by
  rw [children, children, hp]

theorem reach_of_payloadAt_eq {h h' : Heap} (hp : ∀ y, payloadAt h' y = payloadAt h y)
    {r : Ref} {x : Nat} (hr : Reach h' r x) : Reach h r x := by
  induction hr with
  | refl x hv =>
    refine Reach.refl x ?_
    rw [valid_eq_payloadAt, ← hp, ← valid_eq_payloadAt]
    exact hv
  | step r x y hrx hc hv ih =>
    refine Reach.step r x y ih ?_ ?_
    · rwa [← children_congr (hp x)]
    · rw [valid_eq_payloadAt, ← hp, ← valid_eq_payloadAt]
      exact hv

theorem markLe_reach {h h' : Heap} (hle : MarkLe h h') {r : Ref} {x : Nat} :
    Reach h' r x ↔ Reach h r x := by
  constructor
  · exact reach_of_payloadAt_eq (markLe_payloadAt hle)
  · exact reach_of_payloadAt_eq (fun y => (markLe_payloadAt hle y).symm)

theorem reach_valid {h : Heap} {r : Ref} {x : Nat} (hr : Reach h r x) : valid h x = true := by
  cases hr with
  | refl _ hv => exact hv
  | step _ _ _ _ _ hv => exact hv

theorem valid_setMark (h : Heap) (id x : Nat) : valid (setMark h id) x = valid h x := by
  rw [valid_eq_payloadAt, valid_eq_payloadAt, payloadAt_setMark]

theorem children_setMark (h : Heap) (id x : Nat) :
    children (setMark h id) x = children h x :=
  children_congr (payloadAt_setMark h id x)

theorem children_of_lookup {h : Heap} {id : Nat} {o : Obj} (hl : lookup h id = some o) :
    children h id =
      (match o.payload with
       | .pair a b => [a, b]
       | .arr d => d.elems
       | _ => []) := by
  rw [children, payloadAt, hl, Option.map_some']
  cases o.payload <;> rfl

theorem reach_child {h : Heap} {r : Ref} {x id : Nat}
    (hr : Reach h r x) (hc : r ∈ children h id) (hv : valid h id = true) :
    Reach h (some id) x := by
  induction hr with
  | refl z hz => exact Reach.step (some id) id z (Reach.refl id hv) hc hz
  | step r z y hrz hcy hy ih => exact Reach.step (some id) z y (ih hc) hcy hy

/-! ## Unfolding equations for the marking recursion -/

theorem mark_object_zero (h : Heap) (r : Ref) : mark_object 0 h r = h := by
  rw [mark_object]

theorem mark_object_none (fuel : Nat) (h : Heap) : mark_object fuel h none = h := by
  cases fuel <;> rw [mark_object]

theorem mark_object_dangling {h : Heap} {id : Nat} (fuel : Nat)
    (hl : lookup h id = none) : mark_object (fuel + 1) h (some id) = h := by
  rw [mark_object, hl]

theorem mark_object_marked {h : Heap} {id : Nat} {o : Obj} (fuel : Nat)
    (hl : lookup h id = some o) (hm : o.mark = true) :
    mark_object (fuel + 1) h (some id) = h := by
  rw [mark_object, hl]
  simp [hm]

theorem mark_object_step {h : Heap} {id : Nat} {o : Obj} (fuel : Nat)
    (hl : lookup h id = some o) (hm : o.mark = false) :
    mark_object (fuel + 1) h (some id) =
      (match o.payload with
       | .number _ => setMark h id
       | .str _ => setMark h id
       | .pair a b => mark_object fuel (mark_object fuel (setMark h id) a) b
       | .arr d => mark_elements fuel (setMark h id) d.elems) := by
  rw [mark_object, hl]
  simp [hm]

theorem mark_elements_nil (fuel : Nat) (h : Heap) : mark_elements fuel h [] = h := by
  rw [mark_elements]

theorem mark_elements_cons (fuel : Nat) (h : Heap) (r : Ref) (rs : List Ref) :
    mark_elements fuel h (r :: rs) = mark_elements fuel (mark_object fuel h r) rs := by
  rw [mark_elements]

/-! ## The mark phase only raises mark bits -/

theorem markLe_mark_elements_of {fuel : Nat}
    (H : ∀ h r, MarkLe h (mark_object fuel h r)) :
    ∀ (h : Heap) (rs : List Ref), MarkLe h (mark_elements fuel h rs) := by
  intro h rs
  induction rs generalizing h with
  | nil => rw [mark_elements_nil]; exact markLe_refl h
  | cons r rs ih =>
    rw [mark_elements_cons]
    exact markLe_trans (H h r) (ih _)

theorem markLe_mark_object :
    ∀ (fuel : Nat) (h : Heap) (r : Ref), MarkLe h (mark_object fuel h r) := by
  intro fuel
  induction fuel with
  | zero => intro h r; rw [mark_object_zero]; exact markLe_refl h
  | succ f ih =>
    intro h r
    cases r with
    | none => rw [mark_object_none]; exact markLe_refl h
    | some id =>
      cases hl : lookup h id with
      | none => rw [mark_object_dangling f hl]; exact markLe_refl h
      | some o =>
        cases hm : o.mark with
        | true => rw [mark_object_marked f hl hm]; exact markLe_refl h
        | false =>
          rw [mark_object_step f hl hm]
          cases hp : o.payload with
          | number q => exact markLe_setMark h id
          | str s => exact markLe_setMark h id
          | pair a b =>
            exact markLe_trans (markLe_setMark h id) (markLe_trans (ih _ a) (ih _ b))
          | arr d =>
            exact markLe_trans (markLe_setMark h id) (markLe_mark_elements_of ih _ d.elems)

theorem markLe_mark_elements (fuel : Nat) (h : Heap) (rs : List Ref) :
    MarkLe h (mark_elements fuel h rs) :=
  markLe_mark_elements_of (markLe_mark_object fuel) h rs

theorem count_mark_object_le (fuel : Nat) (h : Heap) (r : Ref) :
    unmarkedCount (mark_object fuel h r) ≤ unmarkedCount h :=
  markLe_count (markLe_mark_object fuel h r)

/-! ## Fuel indifference: `unmarkedCount` fuel always suffices, which is
the termination argument of the C recursion -/

theorem mark_elements_fuelSucc_of {fuel : Nat}
    (H : ∀ h r, unmarkedCount h ≤ fuel → mark_object (fuel + 1) h r = mark_object fuel h r) :
    ∀ (h : Heap) (rs : List Ref), unmarkedCount h ≤ fuel →
      mark_elements (fuel + 1) h rs = mark_elements fuel h rs := by
  intro h rs
  induction rs generalizing h with
  | nil => intro _; rw [mark_elements_nil, mark_elements_nil]
  | cons r rs ih =>
    intro hc
    rw [mark_elements_cons, mark_elements_cons, H h r hc]
    exact ih _ (le_trans (count_mark_object_le fuel h r) hc)

theorem mark_object_fuelSucc :
    ∀ (fuel : Nat) (h : Heap) (r : Ref), unmarkedCount h ≤ fuel →
      mark_object (fuel + 1) h r = mark_object fuel h r := by
  intro fuel
  induction fuel with
  | zero =>
    intro h r hc
    rw [mark_object_zero]
    cases r with
    | none => rw [mark_object_none]
    | some id =>
      cases hl : lookup h id with
      | none => exact mark_object_dangling 0 hl
      | some o =>
        cases hm : o.mark with
        | true => exact mark_object_marked 0 hl hm
        | false =>
          have := unmarkedCount_pos hl hm
          omega
  | succ f ih =>
    intro h r hc
    cases r with
    | none => rw [mark_object_none, mark_object_none]
    | some id =>
      cases hl : lookup h id with
      | none => rw [mark_object_dangling _ hl, mark_object_dangling _ hl]
      | some o =>
        cases hm : o.mark with
        | true => rw [mark_object_marked _ hl hm, mark_object_marked _ hl hm]
        | false =>
          rw [mark_object_step (f + 1) hl hm, mark_object_step f hl hm]
          have hcount : unmarkedCount (setMark h id) ≤ f := by
            have := unmarkedCount_setMark_lt hl hm
            omega
          cases hp : o.payload with
          | number q => rfl
          | str s => rfl
          | pair a b =>
            dsimp only
            rw [ih _ a hcount]
            exact ih _ b (le_trans (count_mark_object_le f _ a) hcount)
          | arr d => exact mark_elements_fuelSucc_of ih _ d.elems hcount

theorem mark_object_add (h : Heap) (r : Ref) (k : Nat) :
    mark_object (unmarkedCount h + k) h r = markObj h r := by
  induction k with
  | zero => rfl
  | succ k ih =>
    rw [← Nat.add_assoc, mark_object_fuelSucc _ _ _ (Nat.le_add_right _ _), ih]

theorem mark_object_fuel_ge {fuel : Nat} (h : Heap) (r : Ref)
    (hc : unmarkedCount h ≤ fuel) : mark_object fuel h r = markObj h r := by
  obtain ⟨k, rfl⟩ := Nat.exists_eq_add_of_le hc
  exact mark_object_add h r k

/-! ## With sufficient fuel, the root of a mark call ends up marked -/

theorem markedB_mark_object_root {fuel : Nat} {h : Heap} {x : Nat}
    (hc : unmarkedCount h ≤ fuel) (hv : valid h x = true) :
    markedB (mark_object fuel h (some x)) x = true := by
  cases hl : lookup h x with
  | none => rw [valid, hl] at hv; simp at hv
  | some o =>
    cases hm : o.mark with
    | true =>
      have hmB : markedB h x = true := by rw [markedB, hl]; exact hm
      exact markLe_markedB (markLe_mark_object fuel h _) hmB
    | false =>
      have hpos := unmarkedCount_pos hl hm
      cases fuel with
      | zero => omega
      | succ f =>
        rw [mark_object_step f hl hm]
        have hsm : markedB (setMark h x) x = true := markedB_setMark_self hv
        cases hp : o.payload with
        | number q => exact hsm
        | str s => exact hsm
        | pair a b =>
          exact markLe_markedB
            (markLe_trans (markLe_mark_object f _ a) (markLe_mark_object f _ b)) hsm
        | arr d => exact markLe_markedB (markLe_mark_elements f _ d.elems) hsm

theorem markedB_mark_elements_mem {fuel : Nat} {h : Heap} {rs : List Ref} {y : Nat}
    (hc : unmarkedCount h ≤ fuel) (hmem : some y ∈ rs) (hv : valid h y = true) :
    markedB (mark_elements fuel h rs) y = true := by
  induction rs generalizing h with
  | nil => simp at hmem
  | cons r rs ih =>
    rw [mark_elements_cons]
    rcases List.mem_cons.mp hmem with heq | hmem'
    · have hroot : markedB (mark_object fuel h r) y = true := by
        rw [← heq]
        exact markedB_mark_object_root hc hv
      exact markLe_markedB (markLe_mark_elements fuel _ rs) hroot
    · refine ih (le_trans (count_mark_object_le fuel h r) hc) hmem' ?_
      rw [markLe_valid (markLe_mark_object fuel h r)]
      exact hv

/-! ## Closure: everything newly marked has all its live children marked -/

/-- Closure statement for a single `mark_object` call at a given fuel. -/
def ObjClosed (fuel : Nat) : Prop :=
  ∀ (h : Heap) (r : Ref) (x : Nat), unmarkedCount h ≤ fuel →
    markedB (mark_object fuel h r) x = true →
    markedB h x = true ∨
      ∀ y : Nat, some y ∈ children h x → valid h y = true →
        markedB (mark_object fuel h r) y = true

theorem mark_elements_closed_of {fuel : Nat} (H : ObjClosed fuel) :
    ∀ (h : Heap) (rs : List Ref) (x : Nat), unmarkedCount h ≤ fuel →
      markedB (mark_elements fuel h rs) x = true →
      markedB h x = true ∨
        ∀ y : Nat, some y ∈ children h x → valid h y = true →
          markedB (mark_elements fuel h rs) y = true := by
  intro h rs
  induction rs generalizing h with
  | nil =>
    intro x _ hm
    rw [mark_elements_nil] at hm
    exact Or.inl hm
  | cons r rs ih =>
    intro x hc hm
    rw [mark_elements_cons] at hm ⊢
    have hle1 : MarkLe h (mark_object fuel h r) := markLe_mark_object fuel h r
    have hc1 : unmarkedCount (mark_object fuel h r) ≤ fuel :=
      le_trans (count_mark_object_le fuel h r) hc
    rcases ih _ x hc1 hm with hm1 | hch
    · rcases H h r x hc hm1 with hmh | hch0
      · exact Or.inl hmh
      · refine Or.inr fun y hy hv => ?_
        exact markLe_markedB (markLe_mark_elements fuel _ rs) (hch0 y hy hv)
    · refine Or.inr fun y hy hv => ?_
      refine hch y ?_ ?_
      · rwa [markLe_children hle1]
      · rwa [markLe_valid hle1]

theorem mark_object_closed : ∀ fuel : Nat, ObjClosed fuel := by
  intro fuel
  induction fuel with
  | zero =>
    intro h r x _ hm
    rw [mark_object_zero] at hm
    exact Or.inl hm
  | succ f ih =>
    intro h r x hc hm
    cases r with
    | none => rw [mark_object_none] at hm; exact Or.inl hm
    | some id =>
      cases hl : lookup h id with
      | none => rw [mark_object_dangling f hl] at hm; exact Or.inl hm
      | some o =>
        cases hmk : o.mark with
        | true => rw [mark_object_marked f hl hmk] at hm; exact Or.inl hm
        | false =>
          rw [mark_object_step f hl hmk] at hm ⊢
          have hc1 : unmarkedCount (setMark h id) ≤ f := by
            have := unmarkedCount_setMark_lt hl hmk
            omega
          have hlsm : MarkLe h (setMark h id) := markLe_setMark h id
          cases hp : o.payload with
          | number q =>
            simp only [hp] at hm ⊢
            rcases markedB_setMark hm with rfl | hmh
            · refine Or.inr fun y hy _ => ?_
              rw [children_of_lookup hl, hp] at hy
              simp at hy
            · exact Or.inl hmh
          | str s =>
            simp only [hp] at hm ⊢
            rcases markedB_setMark hm with rfl | hmh
            · refine Or.inr fun y hy _ => ?_
              rw [children_of_lookup hl, hp] at hy
              simp at hy
            · exact Or.inl hmh
          | pair a b =>
            simp only [hp] at hm ⊢
            have hcA : unmarkedCount (mark_object f (setMark h id) a) ≤ f :=
              le_trans (count_mark_object_le f _ a) hc1
            have hleA : MarkLe (setMark h id) (mark_object f (setMark h id) a) :=
              markLe_mark_object f _ a
            have hleB : MarkLe (mark_object f (setMark h id) a)
                (mark_object f (mark_object f (setMark h id) a) b) :=
              markLe_mark_object f _ b
            rcases ih _ b x hcA hm with hmA | hchB
            · rcases ih _ a x hc1 hmA with hm1 | hchA
              · rcases markedB_setMark hm1 with rfl | hmh
                · refine Or.inr fun y hy hv => ?_
                  rw [children_of_lookup hl, hp] at hy
                  have hv1 : valid (setMark h x) y = true := by rwa [valid_setMark]
                  rcases List.mem_cons.mp hy with hya | hyb
                  · have hma : markedB (mark_object f (setMark h x) a) y = true := by
                      rw [← hya]
                      exact markedB_mark_object_root hc1 hv1
                    exact markLe_markedB hleB hma
                  · have hyb' : some y = b := by simpa using hyb
                    have hvA : valid (mark_object f (setMark h x) a) y = true := by
                      rwa [markLe_valid hleA]
                    rw [← hyb']
                    exact markedB_mark_object_root hcA hvA
                · exact Or.inl hmh
              · refine Or.inr fun y hy hv => ?_
                refine markLe_markedB hleB (hchA y ?_ ?_)
                · rwa [markLe_children hlsm]
                · rwa [markLe_valid hlsm]
            · refine Or.inr fun y hy hv => ?_
              refine hchB y ?_ ?_
              · rwa [markLe_children (markLe_trans hlsm hleA)]
              · rwa [markLe_valid (markLe_trans hlsm hleA)]
          | arr d =>
            simp only [hp] at hm ⊢
            rcases mark_elements_closed_of ih _ d.elems x hc1 hm with hm1 | hch
            · rcases markedB_setMark hm1 with rfl | hmh
              · refine Or.inr fun y hy hv => ?_
                rw [children_of_lookup hl, hp] at hy
                have hv1 : valid (setMark h x) y = true := by rwa [valid_setMark]
                exact markedB_mark_elements_mem hc1 hy hv1
              · exact Or.inl hmh
            · refine Or.inr fun y hy hv => ?_
              refine hch y ?_ ?_
              · rwa [markLe_children hlsm]
              · rwa [markLe_valid hlsm]

/-! ## Soundness: only objects reachable from the root get marked -/

/-- Soundness statement for a single `mark_object` call at a given fuel. -/
def ObjSound (fuel : Nat) : Prop :=
  ∀ (h : Heap) (r : Ref) (x : Nat), markedB (mark_object fuel h r) x = true →
    markedB h x = true ∨ Reach h r x

theorem mark_elements_reach_of {fuel : Nat} (H : ObjSound fuel) :
    ∀ (h : Heap) (rs : List Ref) (x : Nat),
      markedB (mark_elements fuel h rs) x = true →
      markedB h x = true ∨ ∃ r ∈ rs, Reach h r x := by
  intro h rs
  induction rs generalizing h with
  | nil =>
    intro x hm
    rw [mark_elements_nil] at hm
    exact Or.inl hm
  | cons r rs ih =>
    intro x hm
    rw [mark_elements_cons] at hm
    have hle1 : MarkLe h (mark_object fuel h r) := markLe_mark_object fuel h r
    rcases ih _ x hm with hm1 | ⟨r', hr', hre⟩
    · rcases H h r x hm1 with hmh | hre
      · exact Or.inl hmh
      · exact Or.inr ⟨r, List.mem_cons_self r rs, hre⟩
    · refine Or.inr ⟨r', List.mem_cons_of_mem r hr', ?_⟩
      exact reach_of_payloadAt_eq (markLe_payloadAt hle1) hre

theorem mark_object_reach : ∀ fuel : Nat, ObjSound fuel := by
  intro fuel
  induction fuel with
  | zero =>
    intro h r x hm
    rw [mark_object_zero] at hm
    exact Or.inl hm
  | succ f ih =>
    intro h r x hm
    cases r with
    | none => rw [mark_object_none] at hm; exact Or.inl hm
    | some id =>
      cases hl : lookup h id with
      | none => rw [mark_object_dangling f hl] at hm; exact Or.inl hm
      | some o =>
        cases hmk : o.mark with
        | true => rw [mark_object_marked f hl hmk] at hm; exact Or.inl hm
        | false =>
          rw [mark_object_step f hl hmk] at hm
          have hlsm : MarkLe h (setMark h id) := markLe_setMark h id
          have hvid : valid h id = true := valid_of_lookup hl
          cases hp : o.payload with
          | number q =>
            simp only [hp] at hm
            rcases markedB_setMark hm with rfl | hmh
            · exact Or.inr (Reach.refl x hvid)
            · exact Or.inl hmh
          | str s =>
            simp only [hp] at hm
            rcases markedB_setMark hm with rfl | hmh
            · exact Or.inr (Reach.refl x hvid)
            · exact Or.inl hmh
          | pair a b =>
            simp only [hp] at hm
            have hleA : MarkLe (setMark h id) (mark_object f (setMark h id) a) :=
              markLe_mark_object f _ a
            have hchild : children h id = [a, b] := by rw [children_of_lookup hl, hp]
            rcases ih _ b x hm with hmA | hreB
            · rcases ih _ a x hmA with hm1 | hreA
              · rcases markedB_setMark hm1 with rfl | hmh
                · exact Or.inr (Reach.refl x hvid)
                · exact Or.inl hmh
              · have hra : Reach h a x := reach_of_payloadAt_eq (markLe_payloadAt hlsm) hreA
                have hamem : a ∈ children h id := by
                  rw [hchild]; exact List.mem_cons_self a [b]
                exact Or.inr (reach_child hra hamem hvid)
            · have hrb : Reach h b x :=
                reach_of_payloadAt_eq (markLe_payloadAt (markLe_trans hlsm hleA)) hreB
              have hbmem : b ∈ children h id := by rw [hchild]; simp
              exact Or.inr (reach_child hrb hbmem hvid)
          | arr d =>
            simp only [hp] at hm
            have hchild : children h id = d.elems := by rw [children_of_lookup hl, hp]
            rcases mark_elements_reach_of ih _ d.elems x hm with hm1 | ⟨r', hr', hre⟩
            · rcases markedB_setMark hm1 with rfl | hmh
              · exact Or.inr (Reach.refl x hvid)
              · exact Or.inl hmh
            · have hrr : Reach h r' x := reach_of_payloadAt_eq (markLe_payloadAt hlsm) hre
              have hrmem : r' ∈ children h id := by rw [hchild]; exact hr'
              exact Or.inr (reach_child hrr hrmem hvid)

/-! ## `markObj` (the always-sufficient-fuel entry point) -/

theorem markObj_none (h : Heap) : markObj h none = h := mark_object_none _ h

theorem markObj_dangling {h : Heap} {x : Nat} (hl : lookup h x = none) :
    markObj h (some x) = h := by
  cases hc : unmarkedCount h with
  | zero => rw [markObj, hc]; exact mark_object_zero h _
  | succ k => rw [markObj, hc]; exact mark_object_dangling k hl

theorem markObj_marked {h : Heap} {x : Nat} (hm : markedB h x = true) :
    markObj h (some x) = h := by
  rw [markedB] at hm
  cases hl : lookup h x with
  | none => rw [hl] at hm; simp at hm
  | some o =>
    rw [hl] at hm
    cases hc : unmarkedCount h with
    | zero => rw [markObj, hc]; exact mark_object_zero h _
    | succ k => rw [markObj, hc]; exact mark_object_marked k hl hm

/-! ## The stack-level `mark()` -/

theorem mark_nil (h : Heap) : mark h [] = h := rfl

theorem mark_cons (h : Heap) (r : Ref) (rs : List Ref) :
    mark h (r :: rs) = markObj (mark h rs) r := rfl

theorem markLe_mark (h : Heap) (st : List Ref) : MarkLe h (mark h st) := by
  induction st with
  | nil => exact markLe_refl h
  | cons r rs ih =>
    rw [mark_cons]
    exact markLe_trans ih (markLe_mark_object _ _ r)

theorem markedB_mark_root {h : Heap} {st : List Ref} {x : Nat}
    (hmem : some x ∈ st) (hv : valid h x = true) : markedB (mark h st) x = true := by
  induction st with
  | nil => simp at hmem
  | cons r rs ih =>
    rw [mark_cons]
    rcases List.mem_cons.mp hmem with heq | hmem'
    · have hv' : valid (mark h rs) x = true := by rwa [markLe_valid (markLe_mark h rs)]
      rw [← heq]
      exact markedB_mark_object_root (le_refl _) hv'
    · exact markLe_markedB (markLe_mark_object _ _ r) (ih hmem')

theorem mark_closed {h : Heap} {st : List Ref} {x : Nat}
    (hm : markedB (mark h st) x = true) :
    markedB h x = true ∨
      ∀ y : Nat, some y ∈ children h x → valid h y = true →
        markedB (mark h st) y = true := by
  induction st with
  | nil => exact Or.inl hm
  | cons r rs ih =>
    rw [mark_cons] at hm ⊢
    have hle1 : MarkLe h (mark h rs) := markLe_mark h rs
    rcases mark_object_closed _ (mark h rs) r x (le_refl _) hm with hm1 | hch
    · rcases ih hm1 with hmh | hch0
      · exact Or.inl hmh
      · refine Or.inr fun y hy hv => ?_
        exact markLe_markedB (markLe_mark_object _ _ r) (hch0 y hy hv)
    · refine Or.inr fun y hy hv => ?_
      refine hch y ?_ ?_
      · rwa [markLe_children hle1]
      · rwa [markLe_valid hle1]

theorem mark_reach {h : Heap} {st : List Ref} {x : Nat}
    (hm : markedB (mark h st) x = true) :
    markedB h x = true ∨ ReachStack h st x := by
  induction st with
  | nil => exact Or.inl hm
  | cons r rs ih =>
    rw [mark_cons] at hm
    rcases mark_object_reach _ (mark h rs) r x hm with hm1 | hre
    · rcases ih hm1 with hmh | ⟨r', hr', hre'⟩
      · exact Or.inl hmh
      · exact Or.inr ⟨r', List.mem_cons_of_mem r hr', hre'⟩
    · refine Or.inr ⟨r, List.mem_cons_self r rs, ?_⟩
      exact reach_of_payloadAt_eq (markLe_payloadAt (markLe_mark h rs)) hre

theorem allUnmarked_markedB {h : Heap} {x : Nat} (hu : allUnmarked h) :
    markedB h x = false := by
  rw [markedB]
  cases hl : lookup h x with
  | none => rfl
  | some o => exact hu _ (mem_of_lookup hl)

theorem mark_complete {h : Heap} {st : List Ref} {x : Nat}
    (hu : allUnmarked h) (hx : ReachStack h st x) : markedB (mark h st) x = true := by
  obtain ⟨r, hrst, hre⟩ := hx
  revert hrst
  induction hre with
  | refl z hz => exact fun hrst => markedB_mark_root hrst hz
  | step r2 z y hrz hcy hvy ih =>
    intro hrst
    rcases mark_closed (ih hrst) with hmh | hch
    · rw [allUnmarked_markedB hu] at hmh
      exact absurd hmh (by simp)
    · exact hch y hcy hvy

/-! ## Sweep lemmas -/

theorem sweep_mark_false (h : Heap) : ∀ e ∈ sweep h, e.2.mark = false := by
  intro e he
  rw [sweep] at he
  obtain ⟨a, _, hsome⟩ := List.mem_filterMap.mp he
  by_cases hm : a.2.mark = true
  · rw [if_pos hm] at hsome
    cases hsome
    rfl
  · rw [if_neg hm] at hsome
    cases hsome

theorem mem_sweep_elim {h : Heap} {e : Nat × Obj} (he : e ∈ sweep h) :
    ∃ o : Obj, (e.1, o) ∈ h ∧ o.mark = true ∧ e.2 = ⟨false, o.payload⟩ := by
  rw [sweep] at he
  obtain ⟨a, ha, hsome⟩ := List.mem_filterMap.mp he
  by_cases hm : a.2.mark = true
  · rw [if_pos hm] at hsome
    cases hsome
    exact ⟨a.2, ha, hm, rfl⟩
  · rw [if_neg hm] at hsome
    cases hsome

theorem mem_sweep_intro {h : Heap} {id : Nat} {o : Obj}
    (hmem : (id, o) ∈ h) (hm : o.mark = true) :
    (id, (⟨false, o.payload⟩ : Obj)) ∈ sweep h := by
  rw [sweep]
  refine List.mem_filterMap.mpr ⟨(id, o), hmem, ?_⟩
  rw [if_pos hm]

theorem sweep_fst_sublist (h : Heap) :
    ((sweep h).map Prod.fst).Sublist (h.map Prod.fst) := by
  induction h with
  | nil => simp [sweep]
  | cons e t ih =>
    rw [sweep, List.filterMap_cons]
    by_cases hm : e.2.mark = true
    · rw [if_pos hm]
      exact List.Sublist.cons₂ e.1 ih
    · rw [if_neg hm]
      exact List.Sublist.cons e.1 ih

theorem sweep_strip_sublist (h : Heap) :
    ((sweep h).map stripE).Sublist (h.map stripE) := by
  induction h with
  | nil => simp [sweep]
  | cons e t ih =>
    rw [sweep, List.filterMap_cons]
    by_cases hm : e.2.mark = true
    · rw [if_pos hm]
      exact List.Sublist.cons₂ (stripE e) ih
    · rw [if_neg hm]
      exact List.Sublist.cons (stripE e) ih

theorem sweep_nodup {h : Heap} (hn : (h.map Prod.fst).Nodup) :
    ((sweep h).map Prod.fst).Nodup :=
  List.Nodup.sublist (sweep_fst_sublist h) hn

theorem sweep_allUnmarked_eq_nil {h : Heap} (hu : allUnmarked h) : sweep h = [] := by
  induction h with
  | nil => rfl
  | cons e t ih =>
    rw [sweep, List.filterMap_cons, if_neg (by rw [hu e (List.mem_cons_self e t)]; simp)]
    exact ih fun a ha => hu a (List.mem_cons_of_mem e ha)

theorem lookup_sweep {h : Heap} {id : Nat} {o : Obj} (hn : (h.map Prod.fst).Nodup)
    (hl : lookup h id = some o) (hm : o.mark = true) :
    lookup (sweep h) id = some ⟨false, o.payload⟩ :=
  lookup_of_mem_nodup (sweep_nodup hn) (mem_sweep_intro (mem_of_lookup hl) hm)

theorem markedB_of_fst_mem_sweep {h : Heap} {id : Nat}
    (hn : (h.map Prod.fst).Nodup) (hmem : id ∈ (sweep h).map Prod.fst) :
    markedB h id = true := by
  obtain ⟨e, he, hfst⟩ := List.mem_map.mp hmem
  obtain ⟨o, hoh, hom, _⟩ := mem_sweep_elim he
  rw [markedB, lookup_of_mem_nodup hn (hfst ▸ hoh)]
  exact hom

/-! ## Allocation invariants -/

theorem allUnmarked_new_object {σ : AllocState} (hu : allUnmarked σ.heap) (p : Payload) :
    allUnmarked (new_object σ p).heap := by
  intro e he
  rcases List.mem_cons.mp he with rfl | hm
  · rfl
  · exact hu _ hm

theorem allUnmarked_applyAlloc {σ : AllocState} (hu : allUnmarked σ.heap) (op : AllocOp) :
    allUnmarked (applyAlloc σ op).heap := by
  cases op with
  | number q => exact allUnmarked_new_object hu _
  | pair a b => exact allUnmarked_new_object hu _
  | array => exact allUnmarked_new_object hu _
  | string s => exact allUnmarked_new_object hu _

theorem allUnmarked_foldl_allocs :
    ∀ (ops : List AllocOp) (σ : AllocState), allUnmarked σ.heap →
      allUnmarked ((ops.foldl applyAlloc σ).heap) := by
  intro ops
  induction ops with
  | nil => exact fun σ hu => hu
  | cons op ops ih =>
    intro σ hu
    exact ih _ (allUnmarked_applyAlloc hu op)

/-! ## The collector claims -/

/-- C1: after `collect()` (`stop_the_world_mark_and_sweep`), every object
still in the registry has its mark bit clear, and every object that was not
reachable from the root stack at the moment of invocation has been removed
from the registry (and hence deallocated).  The hypotheses are the standing
invariants of the collector: ids are unique (fresh allocation) and every
mark bit is clear when a cycle starts. -/
theorem c1_collect_postcondition (h : Heap) (st : List Ref)
    (hn : (h.map Prod.fst).Nodup) (hu : allUnmarked h) :
    (∀ e ∈ stop_the_world_mark_and_sweep h st, e.2.mark = false) ∧
    (∀ e ∈ h, ¬ ReachStack h st e.1 →
      e.1 ∉ (stop_the_world_mark_and_sweep h st).map Prod.fst) := by
  constructor
  · exact sweep_mark_false (mark h st)
  · intro e _ hnr hmem
    have hn' : ((mark h st).map Prod.fst).Nodup := by
      rwa [markLe_fst (markLe_mark h st)]
    have hmk : markedB (mark h st) e.1 = true := markedB_of_fst_mem_sweep hn' hmem
    rcases mark_reach hmk with hmh | hre
    · rw [allUnmarked_markedB hu] at hmh
      exact absurd hmh (by simp)
    · exact hnr hre

/-- Closed witness for `c1_collect_postcondition` on a concrete heap: a
root pair with a reachable number and an unreachable number. -/
theorem c1_witness :
    (∀ e ∈ stop_the_world_mark_and_sweep exHeap [some 0], e.2.mark = false) ∧
    (∀ e ∈ exHeap, ¬ ReachStack exHeap [some 0] e.1 →
      e.1 ∉ (stop_the_world_mark_and_sweep exHeap [some 0]).map Prod.fst) :=
  c1_collect_postcondition exHeap [some 0] (by decide) (by decide)

/-- C2: any sequence of allocations (of any of the four variants) followed
by `collect()` with an empty root stack leaves the registry empty. -/
theorem c2_collect_empty_stack_empties_heap (ops : List AllocOp) :
    stop_the_world_mark_and_sweep (runAllocs ops).heap [] = [] := by
  have hu : allUnmarked (runAllocs ops).heap :=
    allUnmarked_foldl_allocs ops ⟨[], 0⟩ (by intro e he; simp at he)
  exact sweep_allUnmarked_eq_nil hu

/-- C9: `collect()` never changes the payload of a survivor: the swept
registry, viewed without mark bits, is a sublist (same order, same ids,
same payloads — type tag, number value, pair head/tail, array capacity,
length and elements, string contents) of the original registry viewed
without mark bits; and the only mark-bit change on survivors is clearing
to `false`. -/
theorem c9_collect_frame (h : Heap) (st : List Ref) :
    ((stop_the_world_mark_and_sweep h st).map stripE).Sublist (h.map stripE) ∧
    ∀ e ∈ stop_the_world_mark_and_sweep h st, e.2.mark = false := by
  constructor
  · have h1 := sweep_strip_sublist (mark h st)
    rwa [markLe_strip (markLe_mark h st)] at h1
  · exact sweep_mark_false (mark h st)

/-- C3: on any object graph, cyclic ones included, `mark_object` from a
root terminates (any fuel of at least the unmarked-object count computes
the same result, which is the termination bound of the C recursion), the
final mark bits are exactly `reachable from the root` (each reachable node
goes from unmarked to marked), and running the traversal again from the
same root changes nothing (each node is processed at most once, so a
second traversal finds the root already marked). -/
theorem c3_mark_object_terminates_and_marks (h : Heap) (r : Ref) (hu : allUnmarked h) :
    (∀ fuel : Nat, unmarkedCount h ≤ fuel → mark_object fuel h r = markObj h r) ∧
    (∀ x : Nat, markedB (markObj h r) x = true ↔ Reach h r x) ∧
    markObj (markObj h r) r = markObj h r := by
  refine ⟨fun fuel hc => mark_object_fuel_ge h r hc, fun x => ?_, ?_⟩
  · constructor
    · intro hm
      rcases mark_object_reach _ h r x hm with hmh | hre
      · rw [allUnmarked_markedB hu] at hmh
        exact absurd hmh (by simp)
      · exact hre
    · intro hre
      exact mark_complete hu ⟨r, List.mem_cons_self r [], hre⟩
  · cases r with
    | none => rw [markObj_none, markObj_none]
    | some x =>
      by_cases hv : valid h x = true
      · exact markObj_marked (markedB_mark_object_root (le_refl _) hv)
      · have hl : lookup h x = none := by
          rw [valid] at hv
          cases hl : lookup h x with
          | none => rfl
          | some o => rw [hl] at hv; simp at hv
        rw [markObj_dangling hl, markObj_dangling hl]

/-- Closed witness for `c3_mark_object_terminates_and_marks` on the cyclic
heap of two mutually referencing pairs. -/
theorem c3_witness :
    (∀ fuel : Nat, unmarkedCount cycHeap ≤ fuel →
      mark_object fuel cycHeap (some 0) = markObj cycHeap (some 0)) ∧
    (∀ x : Nat, markedB (markObj cycHeap (some 0)) x = true ↔ Reach cycHeap (some 0) x) ∧
    markObj (markObj cycHeap (some 0)) (some 0) = markObj cycHeap (some 0) :=
  c3_mark_object_terminates_and_marks cycHeap (some 0) (by decide)

/-! ## Idempotence of the collector -/

theorem lookup_collect_of_reach {h : Heap} {st : List Ref} {x : Nat} {o : Obj}
    (hn : (h.map Prod.fst).Nodup) (hu : allUnmarked h)
    (hre : ReachStack h st x) (hl : lookup h x = some o) :
    lookup (stop_the_world_mark_and_sweep h st) x = some ⟨false, o.payload⟩ := by
  have hmk : markedB (mark h st) x = true := mark_complete hu hre
  have hn' : ((mark h st).map Prod.fst).Nodup := by
    rwa [markLe_fst (markLe_mark h st)]
  obtain ⟨o', hlo', hpay, _⟩ := markLe_lookup (markLe_mark h st) hl
  rw [markedB, hlo'] at hmk
  have := lookup_sweep hn' hlo' hmk
  rw [hpay] at this
  exact this

theorem reach_collect {h : Heap} {st : List Ref} {r : Ref} {x : Nat}
    (hn : (h.map Prod.fst).Nodup) (hu : allUnmarked h)
    (hrst : r ∈ st) (hre : Reach h r x) :
    Reach (stop_the_world_mark_and_sweep h st) r x := by
  revert hrst
  induction hre with
  | refl z hv =>
    intro hrst
    cases hl : lookup h z with
    | none => rw [valid, hl] at hv; simp at hv
    | some o =>
      have hsur := lookup_collect_of_reach hn hu ⟨some z, hrst, Reach.refl z hv⟩ hl
      exact Reach.refl z (valid_of_lookup hsur)
  | step r2 z y hrz hcy hvy ih =>
    intro hrst
    have ihz := ih hrst
    cases hlz : lookup h z with
    | none =>
      have := reach_valid hrz
      rw [valid, hlz] at this
      simp at this
    | some oz =>
      have hsurz := lookup_collect_of_reach hn hu ⟨r2, hrst, hrz⟩ hlz
      have hpz : payloadAt (stop_the_world_mark_and_sweep h st) z = payloadAt h z := by
        rw [payloadAt, payloadAt, hsurz, hlz]
        rfl
      have hry : Reach h r2 y := Reach.step r2 z y hrz hcy hvy
      cases hly : lookup h y with
      | none => rw [valid, hly] at hvy; simp at hvy
      | some oy =>
        have hsury := lookup_collect_of_reach hn hu ⟨r2, hrst, hry⟩ hly
        refine Reach.step r2 z y ihz ?_ (valid_of_lookup hsury)
        rwa [children_congr hpz]

theorem sweep_of_marked_markLe {h h2 : Heap} (hle : MarkLe h h2)
    (hu : allUnmarked h) (hall : ∀ e ∈ h2, e.2.mark = true) : sweep h2 = h := by
  induction hle with
  | nil => rfl
  | cons hef htt ih =>
    rename_i e f t t'
    have hf : f.2.mark = true := hall f (List.mem_cons_self f t')
    rw [sweep, List.filterMap_cons, if_pos hf]
    have hrest : sweep t' = t :=
      ih (fun a ha => hu a (List.mem_cons_of_mem e ha))
        (fun a ha => hall a (List.mem_cons_of_mem f ha))
    rw [sweep] at hrest
    rw [hrest]
    have hemark : e.2.mark = false := hu e (List.mem_cons_self e t)
    have he2 : e.2 = ⟨false, e.2.payload⟩ := by
      cases hobj : e.2
      rw [hobj] at hemark
      simp only at hemark
      rw [hemark]
    have hfe : (f.1, (⟨false, f.2.payload⟩ : Obj)) = e := by
      have : e = (e.1, e.2) := rfl
      rw [this, he2, hef.1, hef.2.1]
    rw [hfe]

/-- C4: calling `collect()` twice in a row, with no allocation, stack
operation, or object mutation in between, reclaims nothing on the second
call: the registry after the second call is exactly the registry after the
first.  Hypotheses are the standing collector invariants (unique ids, all
marks clear). -/
theorem c4_collect_idempotent (h : Heap) (st : List Ref)
    (hn : (h.map Prod.fst).Nodup) (hu : allUnmarked h) :
    stop_the_world_mark_and_sweep (stop_the_world_mark_and_sweep h st) st =
      stop_the_world_mark_and_sweep h st := by
  have hn1 : ((mark h st).map Prod.fst).Nodup := by
    rwa [markLe_fst (markLe_mark h st)]
  have hu' : allUnmarked (stop_the_world_mark_and_sweep h st) :=
    sweep_mark_false (mark h st)
  have hn' : ((stop_the_world_mark_and_sweep h st).map Prod.fst).Nodup :=
    sweep_nodup hn1
  have hn'' : ((mark (stop_the_world_mark_and_sweep h st) st).map Prod.fst).Nodup := by
    rwa [markLe_fst (markLe_mark _ st)]
  have hall : ∀ e ∈ mark (stop_the_world_mark_and_sweep h st) st, e.2.mark = true := by
    intro e he
    have hlk : lookup (mark (stop_the_world_mark_and_sweep h st) st) e.1 = some e.2 :=
      lookup_of_mem_nodup hn'' he
    have hfst : e.1 ∈ (stop_the_world_mark_and_sweep h st).map Prod.fst := by
      rw [← markLe_fst (markLe_mark (stop_the_world_mark_and_sweep h st) st)]
      exact List.mem_map_of_mem Prod.fst he
    obtain ⟨e0, he0, he0fst⟩ := List.mem_map.mp hfst
    obtain ⟨o1, ho1mem, ho1mark, _⟩ := mem_sweep_elim he0
    have hlo1 : lookup (mark h st) e0.1 = some o1 := lookup_of_mem_nodup hn1 ho1mem
    have hmk0 : markedB (mark h st) e0.1 = true := by rw [markedB, hlo1]; exact ho1mark
    have hreS : ReachStack h st e0.1 := by
      rcases mark_reach hmk0 with hmh | hre
      · rw [allUnmarked_markedB hu] at hmh
        exact absurd hmh (by simp)
      · exact hre
    obtain ⟨r, hrst, hre⟩ := hreS
    have hre' : Reach (stop_the_world_mark_and_sweep h st) r e0.1 :=
      reach_collect hn hu hrst hre
    have hmk' : markedB (mark (stop_the_world_mark_and_sweep h st) st) e0.1 = true :=
      mark_complete hu' ⟨r, hrst, hre'⟩
    rw [he0fst] at hmk'
    rw [markedB, hlk] at hmk'
    exact hmk'
  exact sweep_of_marked_markLe (markLe_mark (stop_the_world_mark_and_sweep h st) st) hu' hall

/-- Closed witness for `c4_collect_idempotent` on a concrete heap with one
reachable and one unreachable object. -/
theorem c4_witness :
    stop_the_world_mark_and_sweep (stop_the_world_mark_and_sweep exHeap [some 0]) [some 0] =
      stop_the_world_mark_and_sweep exHeap [some 0] :=
  c4_collect_idempotent exHeap [some 0] (by decide) (by decide)

/-! ## Growable-array claims -/

theorem append_element_elems (a : ArrayData) (e : Ref) :
    (append_element a e).elems = a.elems ++ [e] := by
  rw [append_element]
  by_cases hc : a.elems.length = a.size <;> simp [hc]

theorem elems_foldl_append :
    ∀ (es : List Ref) (a : ArrayData), (es.foldl append_element a).elems = a.elems ++ es := by
  intro es
  induction es with
  | nil => intro a; simp
  | cons e es ih =>
    intro a
    rw [List.foldl_cons, ih, append_element_elems, List.append_assoc]
    rfl

/-- C5: appending any sequence of references to a freshly allocated
growable array (initial capacity 16, capacity doubling when full) and then
reading back with `get_element` returns the original sequence at every
index — every `N`, the capacity-doubling boundaries `N = 16, 17, 32, 33`
included, and out-of-range reads are past the registered elements. -/
theorem c5_array_round_trip (es : List Ref) (i : Nat) :
    get_element (es.foldl append_element newArrayData) i = es[i]? := by
  rw [get_element, elems_foldl_append]
  simp [newArrayData]

/-- C10: `set_element a i e` with `i` in range changes only index `i`: the
capacity and length are unchanged, every other index reads as before, and
`get_element` at `i` returns `e`. -/
theorem c10_set_element_frame (a : ArrayData) (i : Nat) (e : Ref)
    (hi : i < a.elems.length) :
    (set_element a i e).size = a.size ∧
    (set_element a i e).elems.length = a.elems.length ∧
    (∀ j : Nat, j ≠ i → (set_element a i e).elems[j]? = a.elems[j]?) ∧
    get_element (set_element a i e) i = some e := by
  refine ⟨rfl, by simp [set_element], fun j hj => ?_, ?_⟩
  · rw [set_element]
    exact List.getElem?_set_ne fun hij => hj hij.symm
  · rw [get_element, set_element]
    exact List.getElem?_set_self hi

/-- Closed witness for `c10_set_element_frame` on a concrete three-element
array. -/
theorem c10_witness :
    (set_element exArrayData 1 (some 7)).size = exArrayData.size ∧
    (set_element exArrayData 1 (some 7)).elems.length = exArrayData.elems.length ∧
    (∀ j : Nat, j ≠ 1 →
      (set_element exArrayData 1 (some 7)).elems[j]? = exArrayData.elems[j]?) ∧
    get_element (set_element exArrayData 1 (some 7)) 1 = some (some 7) :=
  c10_set_element_frame exArrayData 1 (some 7) (by decide)

/-! ## Interpreter claims -/

/-- C6: with at least two entries on the stack — the top `rb` is the right
operand `b`, beneath it `ra` is the left operand `a` — each of
`add`/`sub`/`mul`/`div`/`mod` pops `b` first, then `a`, and pushes a fresh
`Number` holding `a op b` (exact-rational model of the `double`
arithmetic, with `fmod` for `mod`; the operand reads `operand->number`
must find live `Number` objects, which is the inner hypothesis of the
first conjunct); `cons` pops in the same order and, for *arbitrary*
operand references (null, pairs and every other variant included, since
`CONS_TOKEN` never inspects payloads), pushes a fresh `Pair` with
`head = a` and `tail = b`, so source text `"a b cons"` yields the pair
`(a . b)`. -/
theorem c6_binop_cons_pop_order (σ : InterpState) (rb ra : Ref) (rest : List Ref)
    (hstk : σ.stack = rb :: ra :: rest) :
    (∀ x y : Frac, numberValue σ.heap ra = some x → numberValue σ.heap rb = some y →
      ∀ t ∈ [Token.add, Token.sub, Token.mul, Token.div, Token.mod],
        dispatch σ t = some { σ with
          heap := (σ.nextId, ⟨false, .number (opDenote t x y)⟩) :: σ.heap,
          nextId := σ.nextId + 1,
          stack := some σ.nextId :: rest }) ∧
    dispatch σ .cons = some { σ with
      heap := (σ.nextId, ⟨false, .pair ra rb⟩) :: σ.heap,
      nextId := σ.nextId + 1,
      stack := some σ.nextId :: rest } := by
  constructor
  · intro x y ha hb t ht
    fin_cases ht <;> simp [dispatch, applyBinop, hstk, ha, hb, opDenote]
  · simp [dispatch, hstk]

/-- Closed witness for `c6_binop_cons_pop_order`: a stack holding
references to the numbers 5 (left operand, below) and 3 (right operand,
on top), which satisfy the number-operand antecedents of the first
conjunct with `x = 5`, `y = 3`. -/
theorem c6_witness :
    (∀ x y : Frac, numberValue exInterp.heap (some 0) = some x →
      numberValue exInterp.heap (some 1) = some y →
      ∀ t ∈ [Token.add, Token.sub, Token.mul, Token.div, Token.mod],
        dispatch exInterp t = some { exInterp with
          heap := (exInterp.nextId, ⟨false, .number (opDenote t x y)⟩) :: exInterp.heap,
          nextId := exInterp.nextId + 1,
          stack := some exInterp.nextId :: [] }) ∧
    dispatch exInterp .cons = some { exInterp with
      heap := (exInterp.nextId, ⟨false, .pair (some 0) (some 1)⟩) :: exInterp.heap,
      nextId := exInterp.nextId + 1,
      stack := some exInterp.nextId :: [] } :=
  c6_binop_cons_pop_order exInterp (some 1) (some 0) [] rfl

/-- C7: interpreting the fixed demo program prints exactly the line `9`
followed by the line `(1 2 3)`. -/
theorem c7_demo_program_output :
    Option.map InterpState.output (interpret code.toList) = some ["9", "(1 2 3)"] := by
  decide

/-- C8 (code bug): printing the improper list `(1 . 2)` hits undefined
behaviour instead of printing the pair's last tail value.  After emitting
`" . "`, the C code calls `print_object(object->tail)` where `object` is
the last, non-`PAIR` tail (here the `Number` 2), reading the `tail` union
field of a non-pair — uninitialized or reinterpreted memory.  The last two
conjuncts show both numbers of the pair are inside the faithfully modelled
`%g` domain, so the failure comes from the union-field read, not from the
rendering model. -/
theorem c8_improper_pair_print_undefined :
    print_object 10 improperHeap (some 0) = PrintRes.undefined ∧
    renderNumber 1 = some "1" ∧ renderNumber 2 = some "2" := by
  decide

end GC
